import Mathlib

/-!
# Verification of the xhs-likes-manager core

Shallow embedding of the data model and operations of the
`xhs_likes_manager` package (tagger, fetcher merge step, reviewer session,
store save), together with theorems settling the specification claims.

Strings are modelled as `List Char`; Python `str.lower` is modelled by
`Char.toLower` on each character and `str.strip` by dropping whitespace
from both ends, which agrees with CPython on the ASCII inputs the
properties are about.
-/

namespace Xhs

abbrev Str := List Char

/-! ## Text primitives (Python str operations) -/

/-- Lowercasing of a whole string, Python `str.lower`. -/
def pyLower (s : Str) : Str := s.map Char.toLower

/-- Python `str.strip()`: remove leading and trailing whitespace. -/
def pyStrip (s : Str) : Str :=
  ((s.dropWhile Char.isWhitespace).reverse.dropWhile Char.isWhitespace).reverse

/-- `startsWithL pat s` holds when `pat` is an initial segment of `s`
(Python `str.startswith`). -/
def startsWithL : Str → Str → Bool
  | [], _ => true
  | _ :: _, [] => false
  | a :: as, b :: bs => a == b && startsWithL as bs

/-- `containsSub needle hay` is Python's `needle in hay` substring test. -/
def containsSub (needle : Str) : Str → Bool
  | [] => startsWithL needle []
  | c :: rest => startsWithL needle (c :: rest) || containsSub needle rest

/-- Remainder of a stripped command line after the first word:
`cmd.split(maxsplit=1)[1]` for a string that has already been stripped. -/
def splitRest (s : Str) : Str :=
  (s.dropWhile (fun c => !c.isWhitespace)).dropWhile Char.isWhitespace

/-- Python `str.split(",")`. -/
def splitComma : Str → List Str
  | [] => [[]]
  | c :: rest =>
    match splitComma rest with
    | [] => [[]]
    | t :: ts => if c = ',' then [] :: t :: ts else (c :: t) :: ts

/-- Lexicographic comparison of strings by code point (Python `<=` on str). -/
def strLe : Str → Str → Bool
  | [], _ => true
  | _ :: _, [] => false
  | a :: as, b :: bs => if a = b then strLe as bs else decide (a < b)

/-- Insert into a sorted list of strings. -/
def insertStr (x : Str) : List Str → List Str
  | [] => [x]
  | y :: ys => if strLe x y then x :: y :: ys else y :: insertStr x ys

/-- Insertion sort by code point, Python `sorted` on a list of strings. -/
def sortStrs : List Str → List Str
  | [] => []
  | x :: xs => insertStr x (sortStrs xs)

/-- Keep one copy of each string (Python `set(...)`), order irrelevant to
callers because the result is always sorted afterwards. -/
def dedupStrs : List Str → List Str
  | [] => []
  | x :: xs => if x ∈ xs then dedupStrs xs else x :: dedupStrs xs

/-! ## Tagger (`tagger.py`) -/

/-- One keyword rule from the configuration (`TagRule`). -/
structure TagRule where
  name : Str
  keywords : List Str
deriving DecidableEq

/-- The fallback tag the code appends when no rule matched
(`tagger.py` line 16: `return tags if tags else ["其他"]`). -/
def fallbackTag : Str := "其他".data

/-- Whether a rule matches the lowercased combined text: the inner
`for kw in rule["keywords"]` loop of `auto_tag` with its `break`. -/
def ruleMatched (combined : Str) (r : TagRule) : Bool :=
  r.keywords.any (fun kw => containsSub (pyLower kw) combined)

/-- Names of the rules that matched, in rule order: the outer loop of
`auto_tag`. -/
def matchedNames (combined : Str) : List TagRule → List Str
  | [] => []
  | r :: rs =>
    if ruleMatched combined r then r.name :: matchedNames combined rs
    else matchedNames combined rs

/-- `auto_tag(title, text, tag_rules)` from `tagger.py`:
`combined = (title + " " + text).lower()`, collect the names of rules one
of whose keywords occurs in `combined`, and fall back to `["其他"]`. -/
def auto_tag (title text : Str) (tag_rules : List TagRule) : List Str :=
  let combined := pyLower (title ++ ' ' :: text)
  let tags := matchedNames combined tag_rules
  if tags.isEmpty then [fallbackTag] else tags

/-! ## Claims C1 and C8: classifier behaviour -/

/-- Auxiliary: no rule matches, so the matched-name list is empty. -/
theorem matchedNames_eq_nil {c : Str} {rules : List TagRule}
    (h : ∀ r ∈ rules, ruleMatched c r = false) :
    matchedNames c rules = [] := by
  induction rules with
  | nil => rfl
  | cons r rs ih =>
    have hr : ruleMatched c r = false := h r (by simp)
    simp only [matchedNames, hr, Bool.false_eq_true, if_false]
    exact ih (fun r' hr' => h r' (by simp [hr']))

/-- Auxiliary: membership in the matched-name list characterised. -/
theorem mem_matchedNames {c t : Str} : ∀ {rules : List TagRule},
    t ∈ matchedNames c rules ↔ ∃ r ∈ rules, r.name = t ∧ ruleMatched c r = true
  | [] => by simp [matchedNames]
  | r :: rs => by
    cases hr : ruleMatched c r with
    | false =>
      simp only [matchedNames, hr, Bool.false_eq_true, if_false]
      rw [@mem_matchedNames c t rs]
      constructor
      · rintro ⟨r', hm, hn, hmt⟩; exact ⟨r', by simp [hm], hn, hmt⟩
      · rintro ⟨r', hm, hn, hmt⟩
        rcases List.mem_cons.mp hm with h1 | h1
        · subst h1; rw [hr] at hmt; cases hmt
        · exact ⟨r', h1, hn, hmt⟩
    | true =>
      simp only [matchedNames, hr, if_true]
      rw [List.mem_cons, @mem_matchedNames c t rs]
      constructor
      · rintro (h1 | ⟨r', hm, hn, hmt⟩)
        · exact ⟨r, by simp, h1.symm, hr⟩
        · exact ⟨r', by simp [hm], hn, hmt⟩
      · rintro ⟨r', hm, hn, hmt⟩
        rcases List.mem_cons.mp hm with h1 | h1
        · subst h1; exact Or.inl hn.symm
        · exact Or.inr ⟨r', h1, hn, hmt⟩

/-- C1 (amended): if no keyword of any rule occurs case-insensitively in
the space-joined concatenation `title ++ " " ++ desc`, then `auto_tag`
returns the singleton fallback list `["其他"]`.  The original claim's
fallback name `"uncategorized"` and its separator-free concatenation are
both refuted by `auto_tag_fallback_counterexample`. -/
theorem auto_tag_no_match_fallback (title text : Str) (rules : List TagRule)
    (h : ∀ r ∈ rules, ∀ kw ∈ r.keywords,
      containsSub (pyLower kw) (pyLower (title ++ ' ' :: text)) = false) :
    auto_tag title text rules = [fallbackTag] := by
  unfold auto_tag
  have hm : matchedNames (pyLower (title ++ ' ' :: text)) rules = [] := by
    apply matchedNames_eq_nil
    intro r hr
    simp only [ruleMatched, List.any_eq_false]
    intro kw hkw
    simp [h r hr kw hkw]
  simp [hm]

/-- C1 witness: a rule set whose only keyword `"zzz"` does not match
`"hello world"` yields the fallback tag. -/
theorem auto_tag_no_match_fallback_witness :
    auto_tag "hello world".data [] [⟨"X".data, ["zzz".data]⟩] = [fallbackTag] :=
  auto_tag_no_match_fallback _ _ _ (by decide)

/-- C1 counterexample: the fallback tag is `"其他"`, not `"uncategorized"`;
moreover the keyword `"o b"` matches nothing in the separator-free
concatenation `"foo" ++ "bar"` yet `auto_tag "foo" "bar"` returns `["X"]`
because the code joins title and desc with a space. -/
theorem auto_tag_fallback_counterexample :
    (auto_tag "hello world".data [] [] = ["其他".data]
      ∧ "其他".data ≠ "uncategorized".data)
    ∧ (containsSub (pyLower "o b".data) (pyLower ("foo".data ++ "bar".data)) = false
      ∧ auto_tag "foo".data "bar".data [⟨"X".data, ["o b".data]⟩] = ["X".data]) := by
  decide

/-- C8 (amended): when at least one rule matches, a tag name is in the
result of `auto_tag` iff it is the name of a rule one of whose keywords
occurs case-insensitively in the space-joined text `title ++ " " ++ desc`
(the union of all matching rules' names).  The original claim's
separator-free concatenation is refuted by `auto_tag_union_counterexample`. -/
theorem auto_tag_union_matching (title text : Str) (rules : List TagRule) (t : Str)
    (h : ∃ r ∈ rules, ruleMatched (pyLower (title ++ ' ' :: text)) r = true) :
    t ∈ auto_tag title text rules ↔
      ∃ r ∈ rules, r.name = t ∧ ∃ kw ∈ r.keywords,
        containsSub (pyLower kw) (pyLower (title ++ ' ' :: text)) = true := by
  have hne : matchedNames (pyLower (title ++ ' ' :: text)) rules ≠ [] := by
    rcases h with ⟨r, hr, hmt⟩
    intro hnil
    have : r.name ∈ matchedNames (pyLower (title ++ ' ' :: text)) rules :=
      mem_matchedNames.mpr ⟨r, hr, rfl, hmt⟩
    rw [hnil] at this; cases this
  have hE : (matchedNames (pyLower (title ++ ' ' :: text)) rules).isEmpty = false := by
    cases hmn : matchedNames (pyLower (title ++ ' ' :: text)) rules
    · exact absurd hmn hne
    · rfl
  simp only [auto_tag, hE, Bool.false_eq_true, if_false]
  rw [mem_matchedNames]
  simp only [ruleMatched, List.any_eq_true]

/-- C8 witness: for rules `X ↦ {"foo"}`, `Y ↦ {"bar"}` and text
`"foo bar"`, both `"X"` and `"Y"` are in the classifier's result. -/
theorem auto_tag_union_matching_witness :
    ("X".data ∈ auto_tag "foo bar".data []
        [⟨"X".data, ["foo".data]⟩, ⟨"Y".data, ["bar".data]⟩])
    ∧ ("Y".data ∈ auto_tag "foo bar".data []
        [⟨"X".data, ["foo".data]⟩, ⟨"Y".data, ["bar".data]⟩]) :=
  ⟨(auto_tag_union_matching _ _ _ _ (by decide)).mpr (by decide),
   (auto_tag_union_matching _ _ _ _ (by decide)).mpr (by decide)⟩

/-- C8 counterexample: keyword `"foo"` occurs in the separator-free
concatenation of title `"fo"` and desc `"o"`, yet rule `X` does not match
(the code inserts a space), so the result is the fallback, not `{"X"}`. -/
theorem auto_tag_union_counterexample :
    containsSub (pyLower "foo".data) (pyLower ("fo".data ++ "o".data)) = true
    ∧ auto_tag "fo".data "o".data [⟨"X".data, ["foo".data]⟩] = [fallbackTag]
    ∧ "X".data ∉ auto_tag "fo".data "o".data [⟨"X".data, ["foo".data]⟩] := by
  decide

/-! ## Data model (`utils.py`, `fetcher.py`) -/

/-- One curated item as stored in the JSON database.  Keys that the code
leaves absent at creation (`removed`, `removed_at`) are modelled as
`false` / `none`, matching the `item.get(...)` defaulting used by every
reader of the database. -/
structure Item where
  id : Str
  title : Str
  author : Str
  author_id : Str
  url : Str
  cover : Str
  type : Str
  tags : List Str
  desc : Str
  note : Str
  reviewed : Bool
  removed : Bool
  removed_at : Option Str
  xsec_token : Str
  first_seen : Str
  saved_at : Str
deriving DecidableEq

instance : Inhabited Item :=
  ⟨⟨[], [], [], [], [], [], [], [], [], [], false, false, none, [], [], []⟩⟩

/-- A collection database: `{"items": [...], "last_fetch": ...}`. -/
structure Db where
  items : List Item
  last_fetch : Option Str
deriving DecidableEq

/-- `load_db` on a missing file: `{"items": [], "last_fetch": None}`. -/
def emptyDb : Db := ⟨[], none⟩

/-- A raw record captured from the API.  The fields are exactly those the
merge step reads; `note.get(key, "")` on an absent key is modelled by the
empty string (and the nested `user` / `cover` dicts by their one field
each). -/
structure RawNote where
  note_id : Str
  display_title : Str
  title : Str
  nickname : Str
  user_id : Str
  cover_url : Str
  type : Str
  xsec_token : Str
deriving DecidableEq

instance : Inhabited RawNote := ⟨⟨[], [], [], [], [], [], [], []⟩⟩

/-! ## Merge step (`fetcher.py`, `_fetch_by_tab` dedup and `_process_notes`) -/

/-- The deduplication loop at the end of `_fetch_by_tab`: keep the first
occurrence of each non-empty `note_id`, drop records with an empty id. -/
def dedupLoop (seen : List Str) : List RawNote → List RawNote
  | [] => []
  | raw :: rest =>
    if raw.note_id ≠ [] ∧ raw.note_id ∉ seen then
      raw :: dedupLoop (raw.note_id :: seen) rest
    else dedupLoop seen rest

/-- `_fetch_by_tab`'s final deduplication pass over `all_notes`. -/
def dedupNotes (all_notes : List RawNote) : List RawNote := dedupLoop [] all_notes

/-- `display_title or title or f"笔记 {nid[:8]}"` from `_process_notes`. -/
def displayTitleOf (raw : RawNote) : Str :=
  if raw.display_title ≠ [] then raw.display_title
  else if raw.title ≠ [] then raw.title
  else "笔记 ".data ++ raw.note_id.take 8

/-- The item dict literal built by `_process_notes` for a new record. -/
def makeItem (base timestamp : Str) (raw : RawNote) : Item where
  id := raw.note_id
  title := displayTitleOf raw
  author := raw.nickname
  author_id := raw.user_id
  url := base ++ "/explore/".data ++ raw.note_id
  cover := raw.cover_url
  type := raw.type
  tags := []
  desc := []
  note := []
  reviewed := false
  removed := false
  removed_at := none
  xsec_token := raw.xsec_token
  first_seen := timestamp
  saved_at := timestamp

/-- The `for note in notes` loop of `_process_notes`: `existing_ids` is
computed once by the caller and never extended while appending.  Returns
the appended items in input order together with `new_count`. -/
def processLoop (base timestamp : Str) (existing_ids : List Str) :
    List RawNote → List Item × Nat
  | [] => ([], 0)
  | raw :: rest =>
    let r := processLoop base timestamp existing_ids rest
    if raw.note_id ∈ existing_ids then r
    else (makeItem base timestamp raw :: r.1, r.2 + 1)

/-- `_process_notes(notes, ...)` as a pure function on the loaded
database: append the new items, stamp `last_fetch`, return the new count
(the subsequent `save_db` / `export_markdown` calls persist the result). -/
def process_notes (base timestamp : Str) (notes : List RawNote) (db : Db) :
    Db × Nat :=
  let existing_ids := db.items.map Item.id
  let r := processLoop base timestamp existing_ids notes
  (⟨db.items ++ r.1, some timestamp⟩, r.2)

/-! ## Claim C9: shape of newly constructed items -/

/-- Auxiliary: the synthesized display title is never empty. -/
theorem displayTitleOf_ne_nil (raw : RawNote) : displayTitleOf raw ≠ [] := by
  unfold displayTitleOf
  split
  · assumption
  · split
    · assumption
    · simp [List.append_eq_nil]

/-- Auxiliary: every item appended by the merge loop comes from an input
record whose id was not among the existing ids. -/
theorem processLoop_mem {base t : Str} {ex : List Str} :
    ∀ {ns : List RawNote} {it : Item}, it ∈ (processLoop base t ex ns).1 →
      ∃ raw ∈ ns, it = makeItem base t raw ∧ raw.note_id ∉ ex
  | [], it => by simp [processLoop]
  | raw :: rest, it => by
    intro hmem
    by_cases h : raw.note_id ∈ ex
    · simp only [processLoop, if_pos h] at hmem
      rcases processLoop_mem hmem with ⟨r', hr', heq, hnin⟩
      exact ⟨r', by simp [hr'], heq, hnin⟩
    · simp only [processLoop, if_neg h, List.mem_cons] at hmem
      rcases hmem with heq | hmem
      · exact ⟨raw, by simp, heq, h⟩
      · rcases processLoop_mem hmem with ⟨r', hr', heq, hnin⟩
        exact ⟨r', by simp [hr'], heq, hnin⟩

/-- Auxiliary: ids of the appended items are the input ids not already
present. -/
theorem processLoop_map_id {base t : Str} {ex : List Str} :
    ∀ ns : List RawNote,
      (processLoop base t ex ns).1.map Item.id
        = (ns.map RawNote.note_id).filter (fun x => decide (x ∉ ex))
  | [] => by simp [processLoop]
  | raw :: rest => by
    by_cases h : raw.note_id ∈ ex
    · simp only [processLoop, if_pos h, List.map_cons, List.filter_cons]
      simp [h, processLoop_map_id rest]
    · simp only [processLoop, if_neg h, List.map_cons, List.filter_cons]
      simp [h, makeItem, processLoop_map_id rest]

/-- Auxiliary: when every input id is already present, the merge loop
appends nothing and counts nothing. -/
theorem processLoop_skip_all {base t : Str} {ex : List Str} :
    ∀ {ns : List RawNote}, (∀ raw ∈ ns, raw.note_id ∈ ex) →
      processLoop base t ex ns = ([], 0)
  | [], _ => rfl
  | raw :: rest, h => by
    have h1 : raw.note_id ∈ ex := h raw (by simp)
    simp only [processLoop, if_pos h1]
    exact processLoop_skip_all (fun r hr => h r (by simp [hr]))

/-- C9 (confirmed): every item of a merged collection is either an item
that was already there, or a freshly constructed one with empty `tags`,
`desc` and `note`, `reviewed = false`, `removed = false` (the key is
absent in the dict, which every reader defaults to false), `first_seen`
and `saved_at` both equal to the merge timestamp, and a non-empty title
(a placeholder `"笔记 " ++ id[:8]` when the record carries no title). -/
theorem merge_item_shape (base t : Str) (notes : List RawNote) (db : Db) (it : Item)
    (hmem : it ∈ (process_notes base t notes db).1.items) :
    it ∈ db.items ∨
      (it.tags = [] ∧ it.desc = [] ∧ it.note = [] ∧ it.reviewed = false ∧
       it.removed = false ∧ it.removed_at = none ∧
       it.first_seen = t ∧ it.saved_at = t ∧ it.title ≠ []) := by
  simp only [process_notes] at hmem
  rcases List.mem_append.mp hmem with h | h
  · exact Or.inl h
  · rcases processLoop_mem h with ⟨raw, _, heq, _⟩
    subst heq
    exact Or.inr ⟨rfl, rfl, rfl, rfl, rfl, rfl, rfl, rfl, displayTitleOf_ne_nil raw⟩

/-- C9 witness: merging one record with all-empty fields into the empty
collection yields an item satisfying the shape conjunction. -/
theorem merge_item_shape_witness :
    (makeItem [] "t1".data default ∈
      (process_notes [] "t1".data [default] emptyDb).1.items)
    ∧ (makeItem [] "t1".data default).title ≠ [] := by
  constructor
  · decide
  · exact ((merge_item_shape [] "t1".data [default] emptyDb _ (by decide)).resolve_left
      (by decide)).2.2.2.2.2.2.2.2

/-- Auxiliary: the merged collection's ids are the old ids followed by
the input ids not already present. -/
theorem process_notes_map_id (base t : Str) (notes : List RawNote) (db : Db) :
    (process_notes base t notes db).1.items.map Item.id
      = db.items.map Item.id
        ++ (notes.map RawNote.note_id).filter
             (fun x => decide (x ∉ db.items.map Item.id)) := by
  simp only [process_notes, List.map_append, processLoop_map_id]

/-- Auxiliary: in a duplicate-free list a member is counted once. -/
theorem countP_eq_one_of_nodup_mem {α : Type} [DecidableEq α] {x : α} {l : List α}
    (hnd : l.Nodup) (hmem : x ∈ l) : l.countP (fun y => decide (y = x)) = 1 := by
  induction l with
  | nil => cases hmem
  | cons a l ih =>
    rcases List.nodup_cons.mp hnd with ⟨hna, hnd'⟩
    rcases List.mem_cons.mp hmem with rfl | hmem'
    · rw [List.countP_cons_of_pos _ _ (by simp)]
      have h0 : l.countP (fun y => decide (y = x)) = 0 := by
        rw [List.countP_eq_zero]
        intro b hb
        simp only [decide_eq_true_eq]
        rintro rfl
        exact hna hb
      rw [h0]
    · have hxa : ¬ (a = x) := fun h => hna (h ▸ hmem')
      rw [List.countP_cons_of_neg _ _ (by simpa using hxa)]
      exact ih hnd' hmem'

/-! ## Claims C3 and C10: merge is additive-only, idempotent, and
trusts the capture-side deduplication -/

/-- C3 (confirmed): merging a deduplicated record sequence leaves every
existing item unchanged in place, never touches the items carrying an
already-present id, appends each distinct new id exactly once, yields
`new_item_count = 0` and an unchanged item list on a second merge of the
same batch, and advances `last_fetch` on both merges. -/
theorem merge_additive_idempotent (base t₁ t₂ : Str) (notes : List RawNote) (db : Db)
    (hded : (notes.map RawNote.note_id).Nodup) :
    ((process_notes base t₁ notes db).1.items.take db.items.length = db.items)
    ∧ (∀ x ∈ db.items.map Item.id,
        (process_notes base t₁ notes db).1.items.filter (fun it => decide (it.id = x))
          = db.items.filter (fun it => decide (it.id = x)))
    ∧ (∀ x ∉ db.items.map Item.id, x ∈ notes.map RawNote.note_id →
        ((process_notes base t₁ notes db).1.items.map Item.id).countP
          (fun y => decide (y = x)) = 1)
    ∧ ((process_notes base t₂ notes (process_notes base t₁ notes db).1).2 = 0)
    ∧ ((process_notes base t₂ notes (process_notes base t₁ notes db).1).1.items
        = (process_notes base t₁ notes db).1.items)
    ∧ ((process_notes base t₁ notes db).1.last_fetch = some t₁)
    ∧ ((process_notes base t₂ notes (process_notes base t₁ notes db).1).1.last_fetch
        = some t₂) := by
  have hitems : (process_notes base t₁ notes db).1.items
      = db.items ++ (processLoop base t₁ (db.items.map Item.id) notes).1 := rfl
  have hall : ∀ raw ∈ notes,
      raw.note_id ∈ (process_notes base t₁ notes db).1.items.map Item.id := by
    intro raw hraw
    rw [process_notes_map_id]
    by_cases h : raw.note_id ∈ db.items.map Item.id
    · exact List.mem_append.mpr (Or.inl h)
    · refine List.mem_append.mpr (Or.inr (List.mem_filter.mpr ⟨?_, by simpa using h⟩))
      exact List.mem_map.mpr ⟨raw, hraw, rfl⟩
  have hskip : processLoop base t₂ ((process_notes base t₁ notes db).1.items.map Item.id)
      notes = ([], 0) := processLoop_skip_all hall
  refine ⟨?_, ?_, ?_, ?_, ?_, rfl, rfl⟩
  · rw [hitems]; exact List.take_left _ _
  · intro x hx
    rw [hitems, List.filter_append]
    have hnil : (processLoop base t₁ (db.items.map Item.id) notes).1.filter
        (fun it => decide (it.id = x)) = [] := by
      rw [List.filter_eq_nil_iff]
      intro it hit
      rcases processLoop_mem hit with ⟨raw, _, heq, hnin⟩
      subst heq
      simp only [makeItem, decide_eq_true_eq]
      intro hEq
      exact hnin (hEq ▸ hx)
    rw [hnil, List.append_nil]
  · intro x hx hxn
    rw [process_notes_map_id, List.countP_append]
    have h0 : (db.items.map Item.id).countP (fun y => decide (y = x)) = 0 := by
      rw [List.countP_eq_zero]
      intro b hb
      simp only [decide_eq_true_eq]
      rintro rfl
      exact hx hb
    have hmemf : x ∈ (notes.map RawNote.note_id).filter
        (fun y => decide (y ∉ db.items.map Item.id)) :=
      List.mem_filter.mpr ⟨hxn, by simpa using hx⟩
    have h1 : ((notes.map RawNote.note_id).filter
        (fun y => decide (y ∉ db.items.map Item.id))).countP
          (fun y => decide (y = x)) = 1 :=
      countP_eq_one_of_nodup_mem (hded.filter _) hmemf
    omega
  · show (processLoop base t₂ ((process_notes base t₁ notes db).1.items.map Item.id)
      notes).2 = 0
    rw [hskip]
  · show (process_notes base t₁ notes db).1.items
        ++ (processLoop base t₂ ((process_notes base t₁ notes db).1.items.map Item.id)
            notes).1 = (process_notes base t₁ notes db).1.items
    rw [hskip, List.append_nil]

/-- C3 witness: the spec's scenario — collection `[{id 1}, {id 2}]`,
records `[{id 2}, {id 3}]` — re-merged a second time yields zero new
items, and the first merge stamps `last_fetch`. -/
theorem merge_additive_idempotent_witness :
    ((process_notes [] "t2".data
        [{ (default : RawNote) with note_id := "2".data },
         { (default : RawNote) with note_id := "3".data }]
        (process_notes [] "t1".data
          [{ (default : RawNote) with note_id := "2".data },
           { (default : RawNote) with note_id := "3".data }]
          ⟨[{ (default : Item) with id := "1".data },
            { (default : Item) with id := "2".data, tags := ["X".data] }],
           none⟩).1).2 = 0)
    ∧ ((process_notes [] "t1".data
        [{ (default : RawNote) with note_id := "2".data },
         { (default : RawNote) with note_id := "3".data }]
        ⟨[{ (default : Item) with id := "1".data },
          { (default : Item) with id := "2".data, tags := ["X".data] }],
         none⟩).1.last_fetch = some "t1".data) :=
  ⟨(merge_additive_idempotent [] "t1".data "t2".data _ _ (by decide)).2.2.2.1,
   (merge_additive_idempotent [] "t1".data "t2".data _ _ (by decide)).2.2.2.2.2.1⟩

/-- Auxiliary: the capture-side dedup loop returns records with pairwise
distinct, non-empty ids none of which were already seen. -/
theorem dedupLoop_spec :
    ∀ (l : List RawNote) (seen : List Str),
      ((dedupLoop seen l).map RawNote.note_id).Nodup
      ∧ (∀ raw ∈ dedupLoop seen l, raw.note_id ∉ seen ∧ raw.note_id ≠ [])
  | [], seen => by simp [dedupLoop]
  | raw :: rest, seen => by
    by_cases h : raw.note_id ≠ [] ∧ raw.note_id ∉ seen
    · simp only [dedupLoop, if_pos h]
      obtain ⟨ih1, ih2⟩ := dedupLoop_spec rest (raw.note_id :: seen)
      refine ⟨?_, ?_⟩
      · simp only [List.map_cons, List.nodup_cons]
        refine ⟨?_, ih1⟩
        intro hmem
        rcases List.mem_map.mp hmem with ⟨r', hr', heq⟩
        have hnin := (ih2 r' hr').1
        rw [heq] at hnin
        exact hnin (by simp)
      · intro r hr
        rcases List.mem_cons.mp hr with h1 | h1
        · subst h1; exact ⟨h.2, h.1⟩
        · have h2 := ih2 r h1
          exact ⟨fun hm => h2.1 (by simp [hm]), h2.2⟩
    · simp only [dedupLoop, if_neg h]
      exact dedupLoop_spec rest seen

/-- C10 (confirmed): the merge loop checks membership against the
existing-id set computed once, so an input list holding the same new id
twice appends it twice; id-uniqueness of the collection is preserved
exactly under the precondition that the input ids are pairwise distinct,
which the capture step's deduplication (`_fetch_by_tab`) establishes
together with dropping empty ids. -/
theorem merge_existing_ids_fixed (base t : Str) :
    (((process_notes base t
        [{ (default : RawNote) with note_id := "z".data },
         { (default : RawNote) with note_id := "z".data }]
        emptyDb).1.items.map Item.id).countP
          (fun y => decide (y = "z".data)) = 2)
    ∧ (∀ (notes : List RawNote) (db : Db),
        (db.items.map Item.id).Nodup → (notes.map RawNote.note_id).Nodup →
        ((process_notes base t notes db).1.items.map Item.id).Nodup)
    ∧ (∀ l : List RawNote, ((dedupNotes l).map RawNote.note_id).Nodup
        ∧ ∀ raw ∈ dedupNotes l, raw.note_id ≠ []) := by
  refine ⟨?_, ?_, ?_⟩
  · simp [process_notes, processLoop, emptyDb, makeItem, List.countP_cons]
  · intro notes db h1 h2
    rw [process_notes_map_id]
    rw [List.nodup_append]
    refine ⟨h1, h2.filter _, ?_⟩
    intro x hx hy
    have hni := List.of_mem_filter hy
    simp only [decide_eq_true_eq] at hni
    exact hni hx
  · intro l
    obtain ⟨hn, hmem⟩ := dedupLoop_spec l []
    exact ⟨hn, fun raw hr => (hmem raw hr).2⟩

/-- C10 witness: the duplicate-append example evaluated, a nodup merge,
and the dedup pass collapsing a duplicated capture batch. -/
theorem merge_existing_ids_fixed_witness :
    (((process_notes [] "t".data
        [{ (default : RawNote) with note_id := "z".data },
         { (default : RawNote) with note_id := "z".data }]
        emptyDb).1.items.map Item.id).countP
          (fun y => decide (y = "z".data)) = 2)
    ∧ ((process_notes [] "t".data [default] emptyDb).1.items.map Item.id).Nodup
    ∧ ((dedupNotes [{ (default : RawNote) with note_id := "z".data },
          { (default : RawNote) with note_id := "z".data }]).map
            RawNote.note_id).Nodup :=
  ⟨(merge_existing_ids_fixed [] "t".data).1,
   (merge_existing_ids_fixed [] "t".data).2.1 [default] emptyDb (by decide) (by decide),
   ((merge_existing_ids_fixed [] "t".data).2.2
      [{ (default : RawNote) with note_id := "z".data },
       { (default : RawNote) with note_id := "z".data }]).1⟩

/-! ## Tagging pass (`tag_all` in `tagger.py`) and claim C4 -/

/-- The body of `tag_all`'s loop for one item: classify only when the
current tag list is empty (`if not item.get("tags")`). -/
def tagItem (tag_rules : List TagRule) (item : Item) : Item :=
  if item.tags.isEmpty then
    { item with tags := auto_tag item.title item.desc tag_rules }
  else item

/-- `tag_all` as a pure function on the loaded database (the
surrounding `load_db` / `save_db` / `export_markdown` are the
persistence wrappers). -/
def tag_all (tag_rules : List TagRule) (db : Db) : Db :=
  ⟨db.items.map (tagItem tag_rules), db.last_fetch⟩

/-- C4 (confirmed): the tagging pass classifies an item only when its
tag set is empty; an item that already has a non-empty tag list is
returned unchanged at its position, for every rule set. -/
theorem tag_stability (tag_rules : List TagRule) (db : Db) (i : Nat) (item : Item)
    (hget : db.items[i]? = some item) (hne : item.tags ≠ []) :
    (tag_all tag_rules db).items[i]? = some item := by
  have hE : item.tags.isEmpty = false := by
    cases h : item.tags
    · exact absurd h hne
    · rfl
  simp only [tag_all, List.getElem?_map, hget, Option.map_some']
  simp [tagItem, hE]

/-- C4 witness: an item tagged `["X"]` whose title matches a rule
keyword is untouched by a re-run with changed rules. -/
theorem tag_stability_witness :
    (tag_all [⟨"Y".data, ["t".data]⟩]
      ⟨[{ (default : Item) with title := "t".data, tags := ["X".data] }],
       none⟩).items[0]?
      = some { (default : Item) with title := "t".data, tags := ["X".data] } :=
  tag_stability _ _ 0 _ (by decide) (by decide)

/-! ## Review session (`reviewer.py`) -/

/-- The designated primary category tag checked by the mode filter. -/
def aiTag : Str := "AI/LLM".data

/-- The `for i, item in enumerate(data["items"])` loop of `_get_items`:
skip reviewed ids, then apply the mode predicate. -/
def getItemsLoop (mode : Str) (reviewed_ids : List Str) :
    Nat → List Item → List (Nat × Item)
  | _, [] => []
  | i, item :: rest =>
    let tail := getItemsLoop mode reviewed_ids (i + 1) rest
    if item.id ∈ reviewed_ids then tail
    else if mode = "ai".data ∧ aiTag ∉ item.tags then tail
    else if mode = "other".data ∧ aiTag ∈ item.tags then tail
    else (i, item) :: tail

/-- `_get_items(data, mode, reviewed_ids)`: unreviewed items filtered by
mode, as `(index, item)` pairs in collection order. -/
def get_items (data : Db) (mode : Str) (reviewed_ids : List Str) :
    List (Nat × Item) :=
  getItemsLoop mode reviewed_ids 0 data.items

/-- The loop state of `review`: the shared database, the `reviewed` id
set and the cursor `pos` into the fixed eligible list. -/
structure SessionSt where
  db : Db
  reviewed : List Str
  pos : Nat
deriving DecidableEq

/-- `reviewed.add(id)` on the set of reviewed ids (list with set
semantics). -/
def addReviewed (id : Str) (l : List Str) : List Str :=
  if id ∈ l then l else id :: l

/-- In-place mutation of the item at an index, as the Python dict
mutation through the shared reference does. -/
def modifyAt (f : Item → Item) : Nat → List Item → List Item
  | _, [] => []
  | 0, it :: rest => f it :: rest
  | n + 1, it :: rest => it :: modifyAt f n rest

/-- `cmd in ("k", "keep", "")`. -/
def isKeepCmd (cmd : Str) : Bool :=
  cmd == "k".data || cmd == "keep".data || cmd == []

/-- `cmd in ("r", "remove")`. -/
def isRemoveCmd (cmd : Str) : Bool :=
  cmd == "r".data || cmd == "remove".data

/-- `cmd in ("s", "skip")`. -/
def isSkipCmd (cmd : Str) : Bool :=
  cmd == "s".data || cmd == "skip".data

/-- `cmd.startswith("t ") or cmd.startswith("tag ")`. -/
def isTagCmd (cmd : Str) : Bool :=
  startsWithL "t ".data cmd || startsWithL "tag ".data cmd

/-- `cmd.startswith("n ") or cmd.startswith("note ")`. -/
def isNoteCmd (cmd : Str) : Bool :=
  startsWithL "n ".data cmd || startsWithL "note ".data cmd

/-- `cmd in ("q", "quit")`. -/
def isQuitCmd (cmd : Str) : Bool :=
  cmd == "q".data || cmd == "quit".data

/-- Tag tokens of a `tag` command: split the remainder on commas, trim,
drop empties. -/
def tagTokens (cmd : Str) : List Str :=
  ((splitComma (splitRest cmd)).map pyStrip).filter (fun tk => !tk.isEmpty)

/-- One iteration of the `while pos < len(items)` loop of `review`: read
the presented item, process one input line
(`cmd = input(">>> ").strip().lower()`), return the new state and whether
the loop continues (`false` exactly on quit). -/
def reviewStep (now : Str) (idxs : List Nat) (s : SessionSt) (input : Str) :
    SessionSt × Bool :=
  let idx := idxs.getD s.pos 0
  let item := s.db.items.getD idx default
  let cmd := pyLower (pyStrip input)
  if isKeepCmd cmd then
    (⟨⟨modifyAt (fun it => { it with reviewed := true }) idx s.db.items,
       s.db.last_fetch⟩,
      addReviewed item.id s.reviewed, s.pos + 1⟩, true)
  else if isRemoveCmd cmd then
    (⟨⟨modifyAt (fun it =>
          { it with reviewed := true, removed := true, removed_at := some now })
        idx s.db.items,
       s.db.last_fetch⟩,
      addReviewed item.id s.reviewed, s.pos + 1⟩, true)
  else if isSkipCmd cmd then
    (⟨s.db, s.reviewed, s.pos + 1⟩, true)
  else if isTagCmd cmd then
    (⟨⟨modifyAt (fun it =>
          { it with tags := sortStrs (dedupStrs (it.tags ++ tagTokens cmd)) })
        idx s.db.items,
       s.db.last_fetch⟩,
      s.reviewed, s.pos⟩, true)
  else if isNoteCmd cmd then
    (⟨⟨modifyAt (fun it => { it with note := splitRest cmd }) idx s.db.items,
       s.db.last_fetch⟩,
      s.reviewed, s.pos⟩, true)
  else if isQuitCmd cmd then
    (s, false)
  else (s, true)

/-- The review loop over a finite sequence of input lines: runs until
the eligible list is exhausted, the inputs run out, or a quit command
breaks out. -/
def reviewRun (now : Str) (idxs : List Nat) : List Str → SessionSt → SessionSt
  | [], s => s
  | input :: rest, s =>
    if s.pos < idxs.length then
      match reviewStep now idxs s input with
      | (s', true) => reviewRun now idxs rest s'
      | (s', false) => s'
    else s

/-- What `review` persists after the loop: the session state's
`reviewed_ids` (written by `_save_state`) and the mutated collection
(written by `save_db`).  Both writes sit after the loop, so they happen
on early quit too. -/
structure ReviewOutput where
  savedReviewedIds : List Str
  savedDb : Db
deriving DecidableEq

/-- `review(config, mode)` as a pure function of the loaded database,
the prior session state's `reviewed_ids`, and the user's input lines.
When no item is eligible the code returns before the loop and persists
nothing (the files keep their prior content). -/
def review (now : Str) (mode : Str) (db : Db) (reviewed0 : List Str)
    (inputs : List Str) : ReviewOutput :=
  let items := get_items db mode reviewed0
  if items.isEmpty then ⟨reviewed0, db⟩
  else
    let final := reviewRun now (items.map Prod.fst) inputs ⟨db, reviewed0, 0⟩
    ⟨final.reviewed, final.db⟩

/-! ## Claim C6: mode filter partition -/

/-- Eligibility predicate of `_get_items`: unreviewed and passing the
mode filter. -/
def eligible (mode : Str) (reviewed_ids : List Str) (it : Item) : Prop :=
  it.id ∉ reviewed_ids
  ∧ ¬(mode = "ai".data ∧ aiTag ∉ it.tags)
  ∧ ¬(mode = "other".data ∧ aiTag ∈ it.tags)

/-- Auxiliary: membership in the eligible list characterised by position
and eligibility. -/
theorem mem_getItemsLoop {mode : Str} {r : List Str} :
    ∀ (l : List Item) (i : Nat) (x : Nat × Item),
      x ∈ getItemsLoop mode r i l ↔
        ∃ k, l[k]? = some x.2 ∧ x.1 = i + k ∧ eligible mode r x.2
  | [], i, x => by simp [getItemsLoop]
  | item :: rest, i, x => by
    have htail := fun y => @mem_getItemsLoop mode r rest (i + 1) y
    constructor
    · intro hmem
      simp only [getItemsLoop] at hmem
      by_cases h1 : item.id ∈ r
      · rw [if_pos h1] at hmem
        rcases (htail x).mp hmem with ⟨k, hget, hidx, hel⟩
        exact ⟨k + 1, by simpa using hget, by omega, hel⟩
      · rw [if_neg h1] at hmem
        by_cases h2 : mode = "ai".data ∧ aiTag ∉ item.tags
        · rw [if_pos h2] at hmem
          rcases (htail x).mp hmem with ⟨k, hget, hidx, hel⟩
          exact ⟨k + 1, by simpa using hget, by omega, hel⟩
        · rw [if_neg h2] at hmem
          by_cases h3 : mode = "other".data ∧ aiTag ∈ item.tags
          · rw [if_pos h3] at hmem
            rcases (htail x).mp hmem with ⟨k, hget, hidx, hel⟩
            exact ⟨k + 1, by simpa using hget, by omega, hel⟩
          · rw [if_neg h3] at hmem
            rcases List.mem_cons.mp hmem with rfl | hmem'
            · exact ⟨0, by simp, by simp, h1, h2, h3⟩
            · rcases (htail x).mp hmem' with ⟨k, hget, hidx, hel⟩
              exact ⟨k + 1, by simpa using hget, by omega, hel⟩
    · rintro ⟨k, hget, hidx, hel⟩
      simp only [getItemsLoop]
      cases k with
      | zero =>
        simp only [List.getElem?_cons_zero, Option.some_inj] at hget
        have hx : x = (i, item) := by
          cases x
          simp only at hget hidx
          simp [hget, hidx]
        subst hx
        simp only at hel
        rw [hget] at hel
        rw [if_neg hel.1, if_neg hel.2.1, if_neg hel.2.2]
        exact List.mem_cons_self _ _
      | succ k' =>
        simp only [List.getElem?_cons_succ] at hget
        have hm : x ∈ getItemsLoop mode r (i + 1) rest :=
          (htail x).mpr ⟨k', hget, by omega, hel⟩
        by_cases h1 : item.id ∈ r
        · rwa [if_pos h1]
        · rw [if_neg h1]
          by_cases h2 : mode = "ai".data ∧ aiTag ∉ item.tags
          · rwa [if_pos h2]
          · rw [if_neg h2]
            by_cases h3 : mode = "other".data ∧ aiTag ∈ item.tags
            · rwa [if_pos h3]
            · rw [if_neg h3]
              exact List.mem_cons_of_mem _ hm

/-- C6 (confirmed): for every collection and reviewed set, the eligible
lists of mode `ai` and mode `other` are disjoint, and membership in mode
`all`'s eligible list (which filters only on un-reviewed items) is
equivalent to membership in their union. -/
theorem mode_filter_partition (db : Db) (reviewed_ids : List Str) (x : Nat × Item) :
    ¬(x ∈ get_items db "ai".data reviewed_ids
        ∧ x ∈ get_items db "other".data reviewed_ids)
    ∧ (x ∈ get_items db "all".data reviewed_ids ↔
        x ∈ get_items db "ai".data reviewed_ids
          ∨ x ∈ get_items db "other".data reviewed_ids) := by
  have hai : ∀ it : Item, eligible "ai".data reviewed_ids it ↔
      it.id ∉ reviewed_ids ∧ aiTag ∈ it.tags := by
    intro it
    unfold eligible
    constructor
    · rintro ⟨ha, hb, _⟩
      refine ⟨ha, ?_⟩
      by_contra hmem
      exact hb ⟨rfl, hmem⟩
    · rintro ⟨ha, hb⟩
      refine ⟨ha, fun h => h.2 hb, fun h => ?_⟩
      cases (by decide : "ai".data ≠ "other".data) h.1
  have hother : ∀ it : Item, eligible "other".data reviewed_ids it ↔
      it.id ∉ reviewed_ids ∧ aiTag ∉ it.tags := by
    intro it
    unfold eligible
    constructor
    · rintro ⟨ha, _, hc⟩
      refine ⟨ha, fun hmem => hc ⟨rfl, hmem⟩⟩
    · rintro ⟨ha, hb⟩
      refine ⟨ha, fun h => ?_, fun h => hb h.2⟩
      cases (by decide : "other".data ≠ "ai".data) h.1
  have hall : ∀ it : Item, eligible "all".data reviewed_ids it ↔
      it.id ∉ reviewed_ids := by
    intro it
    unfold eligible
    constructor
    · rintro ⟨ha, _, _⟩; exact ha
    · intro ha
      refine ⟨ha, fun h => ?_, fun h => ?_⟩
      · cases (by decide : "all".data ≠ "ai".data) h.1
      · cases (by decide : "all".data ≠ "other".data) h.1
  constructor
  · rintro ⟨h1, h2⟩
    rcases (mem_getItemsLoop db.items 0 x).mp h1 with ⟨k1, _, _, hel1⟩
    rcases (mem_getItemsLoop db.items 0 x).mp h2 with ⟨k2, _, _, hel2⟩
    exact ((hother x.2).mp hel2).2 (((hai x.2).mp hel1).2)
  · constructor
    · intro h
      rcases (mem_getItemsLoop db.items 0 x).mp h with ⟨k, hget, hidx, hel⟩
      have ha := (hall x.2).mp hel
      by_cases hm : aiTag ∈ x.2.tags
      · exact Or.inl ((mem_getItemsLoop db.items 0 x).mpr
          ⟨k, hget, hidx, (hai x.2).mpr ⟨ha, hm⟩⟩)
      · exact Or.inr ((mem_getItemsLoop db.items 0 x).mpr
          ⟨k, hget, hidx, (hother x.2).mpr ⟨ha, hm⟩⟩)
    · intro h
      rcases h with h | h
      · rcases (mem_getItemsLoop db.items 0 x).mp h with ⟨k, hget, hidx, hel⟩
        exact (mem_getItemsLoop db.items 0 x).mpr
          ⟨k, hget, hidx, (hall x.2).mpr ((hai x.2).mp hel).1⟩
      · rcases (mem_getItemsLoop db.items 0 x).mp h with ⟨k, hget, hidx, hel⟩
        exact (mem_getItemsLoop db.items 0 x).mpr
          ⟨k, hget, hidx, (hall x.2).mpr ((hother x.2).mp hel).1⟩

/-- C6 witness: the partition equivalence evaluated on a two-item
collection, one item carrying the primary category tag. -/
theorem mode_filter_partition_witness :
    ((0, { (default : Item) with id := "a".data })
        ∈ get_items ⟨[{ (default : Item) with id := "a".data },
            { (default : Item) with id := "b".data, tags := ["AI/LLM".data] }],
          none⟩ "all".data []
      ↔ (0, { (default : Item) with id := "a".data })
          ∈ get_items ⟨[{ (default : Item) with id := "a".data },
              { (default : Item) with id := "b".data, tags := ["AI/LLM".data] }],
            none⟩ "ai".data []
        ∨ (0, { (default : Item) with id := "a".data })
            ∈ get_items ⟨[{ (default : Item) with id := "a".data },
                { (default : Item) with id := "b".data, tags := ["AI/LLM".data] }],
              none⟩ "other".data []) :=
  (mode_filter_partition _ [] _).2

/-! ## Claims C5 and C7: review-session commands -/

/-- Auxiliary: mutating at an index maps that position. -/
theorem modifyAt_getElem_self (f : Item → Item) :
    ∀ (l : List Item) (n : Nat), (modifyAt f n l)[n]? = l[n]?.map f
  | [], n => by cases n <;> simp [modifyAt]
  | it :: rest, 0 => by simp [modifyAt]
  | it :: rest, n + 1 => by
    simp only [modifyAt, List.getElem?_cons_succ]
    exact modifyAt_getElem_self f rest n

/-- Auxiliary: mutating at an index leaves other positions alone. -/
theorem modifyAt_getElem_ne (f : Item → Item) :
    ∀ (l : List Item) (n j : Nat), j ≠ n → (modifyAt f n l)[j]? = l[j]?
  | [], n, j, _ => by cases n <;> simp [modifyAt]
  | it :: rest, 0, j, h => by
    cases j with
    | zero => exact absurd rfl h
    | succ j' => simp [modifyAt]
  | it :: rest, n + 1, 0, h => by simp [modifyAt]
  | it :: rest, n + 1, j + 1, h => by
    simp only [modifyAt, List.getElem?_cons_succ]
    exact modifyAt_getElem_ne f rest n j (by omega)

/-- Auxiliary: matching a non-empty pattern pins the first character. -/
theorem startsWithL_shape {a : Char} {as l : Str}
    (h : startsWithL (a :: as) l = true) : ∃ bs, l = a :: bs := by
  cases l with
  | nil => simp [startsWithL] at h
  | cons b bs =>
    simp only [startsWithL, Bool.and_eq_true, beq_iff_eq] at h
    exact ⟨bs, by rw [h.1]⟩

/-- Auxiliary: a note command starts with the letter `n`. -/
theorem isNoteCmd_shape {cmd : Str} (h : isNoteCmd cmd = true) :
    ∃ rest, cmd = 'n' :: rest := by
  rcases Bool.or_eq_true_iff.mp h with h1 | h1
  · exact startsWithL_shape h1
  · exact startsWithL_shape h1

/-- C5 (amended): a `NOTE` command replaces the presented item's note
with the remainder of the *stripped and lowercased* input line after the
command word — not with the typed text verbatim, since the code reuses
the lowercased `cmd` for the payload — and it does not advance the
position, does not touch `reviewed_ids`, does not change any other field
or item, and keeps the loop running.  Verbatim storage is refuted by
`note_verbatim_counterexample`. -/
theorem note_cmd_effect (now : Str) (idxs : List Nat) (s : SessionSt) (input : Str)
    (h : isNoteCmd (pyLower (pyStrip input)) = true)
    (hvalid : idxs.getD s.pos 0 < s.db.items.length) :
    (reviewStep now idxs s input).2 = true
    ∧ (reviewStep now idxs s input).1.pos = s.pos
    ∧ (reviewStep now idxs s input).1.reviewed = s.reviewed
    ∧ (∃ old, s.db.items[idxs.getD s.pos 0]? = some old
        ∧ (reviewStep now idxs s input).1.db.items[idxs.getD s.pos 0]?
            = some { old with note := splitRest (pyLower (pyStrip input)) })
    ∧ (∀ j, j ≠ idxs.getD s.pos 0 →
        (reviewStep now idxs s input).1.db.items[j]? = s.db.items[j]?) := by
  obtain ⟨rest, hsh⟩ := isNoteCmd_shape h
  rw [hsh] at h
  have hk : isKeepCmd ('n' :: rest) = false := rfl
  have hr : isRemoveCmd ('n' :: rest) = false := rfl
  have hs : isSkipCmd ('n' :: rest) = false := rfl
  have ht : isTagCmd ('n' :: rest) = false := rfl
  simp only [reviewStep, hsh, hk, hr, hs, ht, h, Bool.false_eq_true, if_false, if_true]
  obtain ⟨old, hold⟩ : ∃ old, s.db.items[idxs.getD s.pos 0]? = some old :=
    ⟨_, List.getElem?_eq_getElem hvalid⟩
  refine ⟨trivial, trivial, trivial, ⟨old, hold, ?_⟩, ?_⟩
  · rw [modifyAt_getElem_self, hold, Option.map_some']
  · intro j hj
    exact modifyAt_getElem_ne _ _ _ _ hj

/-- C5 witness: the note branch evaluated on a one-item session. -/
theorem note_cmd_effect_witness :
    (reviewStep "ts".data [0]
      ⟨⟨[{ (default : Item) with id := "a".data }], none⟩, [], 0⟩
      "n hi".data).2 = true
    ∧ (reviewStep "ts".data [0]
        ⟨⟨[{ (default : Item) with id := "a".data }], none⟩, [], 0⟩
        "n hi".data).1.pos = 0 :=
  ⟨(note_cmd_effect _ _ _ _ (by decide) (by decide)).1,
   (note_cmd_effect _ _ _ _ (by decide) (by decide)).2.1⟩

/-- C5 counterexample: typing `NOTE Hello` stores `"hello"` — the line
is lowercased before the payload is extracted, so the stored note is not
character-for-character what the user typed. -/
theorem note_verbatim_counterexample :
    ((review [] "all".data
        ⟨[{ (default : Item) with id := "a".data, note := "old".data }], none⟩
        [] ["NOTE Hello".data]).savedDb.items.getD 0 default).note = "hello".data
    ∧ "hello".data ≠ "Hello".data := by decide

/-- Auxiliary: adding to the reviewed set keeps the old members. -/
theorem subset_addReviewed (id : Str) (l : List Str) : l ⊆ addReviewed id l := by
  unfold addReviewed
  split
  · exact fun x hx => hx
  · exact List.subset_cons_self _ _

/-- Auxiliary: the added id is a member. -/
theorem mem_addReviewed_self (id : Str) (l : List Str) : id ∈ addReviewed id l := by
  unfold addReviewed
  split
  · assumption
  · exact List.mem_cons_self _ _

/-- Auxiliary: no command ever removes an id from the reviewed set. -/
theorem step_reviewed_mono (now : Str) (idxs : List Nat) (s : SessionSt)
    (input : Str) : s.reviewed ⊆ (reviewStep now idxs s input).1.reviewed := by
  unfold reviewStep
  dsimp only
  split
  · exact subset_addReviewed _ _
  · split
    · exact subset_addReviewed _ _
    · split
      · exact fun x hx => hx
      · split
        · exact fun x hx => hx
        · split
          · exact fun x hx => hx
          · split
            · exact fun x hx => hx
            · exact fun x hx => hx

/-- Auxiliary: the reviewed set grows monotonically over a whole run. -/
theorem run_reviewed_mono (now : Str) (idxs : List Nat) :
    ∀ (cmds : List Str) (s : SessionSt),
      s.reviewed ⊆ (reviewRun now idxs cmds s).reviewed
  | [], s => fun x hx => hx
  | c :: rest, s => by
    simp only [reviewRun]
    split
    · have h1 := step_reviewed_mono now idxs s c
      cases hstep : reviewStep now idxs s c with
      | mk s' b =>
        rw [hstep] at h1
        cases b
        · exact h1
        · exact fun x hx => run_reviewed_mono now idxs rest s' (h1 hx)
    · exact fun x hx => hx

/-- Auxiliary: the two spellings of the quit command. -/
theorem isQuitCmd_shape {cmd : Str} (h : isQuitCmd cmd = true) :
    cmd = "q".data ∨ cmd = "quit".data := by
  rcases Bool.or_eq_true_iff.mp h with h1 | h1
  · exact Or.inl (by simpa using h1)
  · exact Or.inr (by simpa using h1)

/-- Auxiliary: a quit command leaves the state untouched and stops the
loop. -/
theorem step_quit (now : Str) (idxs : List Nat) (s : SessionSt) (input : Str)
    (h : isQuitCmd (pyLower (pyStrip input)) = true) :
    reviewStep now idxs s input = (s, false) := by
  rcases isQuitCmd_shape h with hq | hq <;>
    simp only [reviewStep, hq] <;> rfl

/-- Auxiliary: every non-quit command lets the loop continue. -/
theorem step_nonquit_continue (now : Str) (idxs : List Nat) (s : SessionSt)
    (input : Str) (h : isQuitCmd (pyLower (pyStrip input)) = false) :
    (reviewStep now idxs s input).2 = true := by
  unfold reviewStep
  dsimp only
  split
  · rfl
  · split
    · rfl
    · split
      · rfl
      · split
        · rfl
        · split
          · rfl
          · split
            · rename_i hq
              rw [h] at hq
              cases hq
            · rfl

/-- Auxiliary: a quit mid-sequence makes the run equal to the run of
the commands before it — everything accumulated so far is kept, the
rest is discarded. -/
theorem run_quit_drop (now : Str) (idxs : List Nat) :
    ∀ (c₁ : List Str) (c₂ : List Str) (qc : Str) (s : SessionSt),
      (∀ c ∈ c₁, isQuitCmd (pyLower (pyStrip c)) = false) →
      isQuitCmd (pyLower (pyStrip qc)) = true →
      reviewRun now idxs (c₁ ++ qc :: c₂) s = reviewRun now idxs c₁ s
  | [], c₂, qc, s, _, hq => by
    simp only [List.nil_append, reviewRun, step_quit now idxs s qc hq]
    split <;> rfl
  | c :: rest, c₂, qc, s, h, hq => by
    simp only [List.cons_append, reviewRun]
    have hc := step_nonquit_continue now idxs s c (h c (by simp))
    cases hstep : reviewStep now idxs s c with
    | mk s' b =>
      rw [hstep] at hc
      subst hc
      split
      · exact run_quit_drop now idxs rest c₂ qc s'
          (fun c' hc' => h c' (by simp [hc'])) hq
      · rfl

/-- Auxiliary: the spellings of the keep command. -/
theorem isKeepCmd_shape {cmd : Str} (h : isKeepCmd cmd = true) :
    cmd = "k".data ∨ cmd = "keep".data ∨ cmd = [] := by
  rcases Bool.or_eq_true_iff.mp h with h1 | h1
  · rcases Bool.or_eq_true_iff.mp h1 with h2 | h2
    · exact Or.inl (by simpa using h2)
    · exact Or.inr (Or.inl (by simpa using h2))
  · exact Or.inr (Or.inr (by simpa using h1))

/-- Auxiliary: the spellings of the remove command. -/
theorem isRemoveCmd_shape {cmd : Str} (h : isRemoveCmd cmd = true) :
    cmd = "r".data ∨ cmd = "remove".data := by
  rcases Bool.or_eq_true_iff.mp h with h1 | h1
  · exact Or.inl (by simpa using h1)
  · exact Or.inr (by simpa using h1)

/-- Auxiliary: the spellings of the skip command. -/
theorem isSkipCmd_shape {cmd : Str} (h : isSkipCmd cmd = true) :
    cmd = "s".data ∨ cmd = "skip".data := by
  rcases Bool.or_eq_true_iff.mp h with h1 | h1
  · exact Or.inl (by simpa using h1)
  · exact Or.inr (by simpa using h1)

/-- C7 (confirmed): over any review session, (1) a single step and (2) a
whole command sequence only ever grow `reviewed_ids`; (3) `KEEP` and
`REMOVE` add the presented item's id and advance the position; (4) `SKIP`
advances the position without touching `reviewed_ids` or the collection;
and (5) quitting mid-sequence persists exactly the state reached by the
commands before the quit — both the session's id set and the mutated
collection — discarding nothing accumulated so far. -/
theorem review_monotone_quit_persists :
    (∀ (now : Str) (idxs : List Nat) (s : SessionSt) (input : Str),
        s.reviewed ⊆ (reviewStep now idxs s input).1.reviewed)
    ∧ (∀ (now : Str) (idxs : List Nat) (cmds : List Str) (s : SessionSt),
        s.reviewed ⊆ (reviewRun now idxs cmds s).reviewed)
    ∧ (∀ (now : Str) (idxs : List Nat) (s : SessionSt) (input : Str),
        isKeepCmd (pyLower (pyStrip input)) = true
          ∨ isRemoveCmd (pyLower (pyStrip input)) = true →
        (s.db.items.getD (idxs.getD s.pos 0) default).id
            ∈ (reviewStep now idxs s input).1.reviewed
          ∧ (reviewStep now idxs s input).1.pos = s.pos + 1)
    ∧ (∀ (now : Str) (idxs : List Nat) (s : SessionSt) (input : Str),
        isSkipCmd (pyLower (pyStrip input)) = true →
        (reviewStep now idxs s input).1.reviewed = s.reviewed
          ∧ (reviewStep now idxs s input).1.pos = s.pos + 1
          ∧ (reviewStep now idxs s input).1.db = s.db)
    ∧ (∀ (now mode : Str) (db : Db) (r0 : List Str) (c₁ c₂ : List Str) (qc : Str),
        (∀ c ∈ c₁, isQuitCmd (pyLower (pyStrip c)) = false) →
        isQuitCmd (pyLower (pyStrip qc)) = true →
        review now mode db r0 (c₁ ++ qc :: c₂) = review now mode db r0 c₁) := by
  refine ⟨step_reviewed_mono, run_reviewed_mono, ?_, ?_, ?_⟩
  · intro now idxs s input h
    rcases h with hk | hr
    · unfold reviewStep
      dsimp only
      rw [if_pos hk]
      exact ⟨mem_addReviewed_self _ _, rfl⟩
    · have hk : isKeepCmd (pyLower (pyStrip input)) = false := by
        rcases isRemoveCmd_shape hr with hq | hq <;> rw [hq] <;> rfl
      unfold reviewStep
      dsimp only
      rw [if_neg (by simp [hk]), if_pos hr]
      exact ⟨mem_addReviewed_self _ _, rfl⟩
  · intro now idxs s input hs
    have hk : isKeepCmd (pyLower (pyStrip input)) = false := by
      rcases isSkipCmd_shape hs with hq | hq <;> rw [hq] <;> rfl
    have hr : isRemoveCmd (pyLower (pyStrip input)) = false := by
      rcases isSkipCmd_shape hs with hq | hq <;> rw [hq] <;> rfl
    unfold reviewStep
    dsimp only
    rw [if_neg (by simp [hk]), if_neg (by simp [hr]), if_pos hs]
    exact ⟨rfl, rfl, rfl⟩
  · intro now mode db r0 c₁ c₂ qc h hq
    simp only [review]
    split
    · rfl
    · rw [run_quit_drop now _ c₁ c₂ qc _ h hq]

/-- C7 witness: keep adds the id, skip leaves the set empty, and a
keep-then-quit session equals the keep-only session, on a one-item
collection. -/
theorem review_monotone_quit_persists_witness :
    ("a".data ∈ (reviewStep "ts".data [0]
        ⟨⟨[{ (default : Item) with id := "a".data }], none⟩, [], 0⟩
        "k".data).1.reviewed)
    ∧ ((reviewStep "ts".data [0]
        ⟨⟨[{ (default : Item) with id := "a".data }], none⟩, [], 0⟩
        "s".data).1.reviewed = [])
    ∧ (review "ts".data "all".data
        ⟨[{ (default : Item) with id := "a".data }], none⟩ []
        (["k".data] ++ "q".data :: ["r".data])
      = review "ts".data "all".data
          ⟨[{ (default : Item) with id := "a".data }], none⟩ [] ["k".data]) :=
  ⟨(review_monotone_quit_persists.2.2.1 "ts".data [0] _ "k".data
      (Or.inl (by decide))).1,
   (review_monotone_quit_persists.2.2.2.1 "ts".data [0] _ "s".data (by decide)).1,
   review_monotone_quit_persists.2.2.2.2 "ts".data "all".data _ []
     ["k".data] ["r".data] "q".data (by decide) (by decide)⟩

/-! ## Store save (`save_db` in `utils.py`) and claim C2 -/

/-- `path.parent` of a POSIX path: everything before the last slash. -/
def parentDir (p : Str) : Str :=
  (((p.reverse.dropWhile (fun c => c ≠ '/')).drop 1).reverse)

/-- File-system operations a save can perform, as an observable trace. -/
inductive FsOp where
  | mkdirs (dir : Str)
  | writeFile (path : Str) (contents : Str)
  | renameFile (src dst : Str)
deriving DecidableEq

/-- JSON string escaping of quotes and backslashes (the characters
relevant to re-parsing; `json.dumps` additionally escapes control
characters, which none of the fields here contain). -/
def jsonEscape : Str → Str
  | [] => []
  | c :: rest =>
    if c = '"' ∨ c = '\\' then '\\' :: c :: jsonEscape rest
    else c :: jsonEscape rest

/-- A JSON string literal. -/
def jsonStr (s : Str) : Str := '"' :: (jsonEscape s ++ ['"'])

/-- A JSON boolean. -/
def jsonBool (b : Bool) : Str := if b then "true".data else "false".data

/-- An optional string: `null` when absent. -/
def jsonOptStr : Option Str → Str
  | none => "null".data
  | some s => jsonStr s

/-- Comma-join of serialized fragments. -/
def joinComma : List Str → Str
  | [] => []
  | [s] => s
  | s :: rest => s ++ ", ".data ++ joinComma rest

/-- A JSON array of strings. -/
def jsonStrList (l : List Str) : Str := '[' :: (joinComma (l.map jsonStr) ++ [']'])

/-- Serialization of one item in the dict's key order.  The indentation
whitespace of `json.dumps(..., indent=2)` is not reproduced; it plays no
role in the properties below, which concern only the write structure and
the balanced-delimiter framing of the payload. -/
def dumpItem (it : Item) : Str :=
  '\x7b' ::
    ("\"id\": ".data ++ jsonStr it.id
     ++ ", \"title\": ".data ++ jsonStr it.title
     ++ ", \"author\": ".data ++ jsonStr it.author
     ++ ", \"author_id\": ".data ++ jsonStr it.author_id
     ++ ", \"url\": ".data ++ jsonStr it.url
     ++ ", \"cover\": ".data ++ jsonStr it.cover
     ++ ", \"type\": ".data ++ jsonStr it.type
     ++ ", \"tags\": ".data ++ jsonStrList it.tags
     ++ ", \"desc\": ".data ++ jsonStr it.desc
     ++ ", \"note\": ".data ++ jsonStr it.note
     ++ ", \"reviewed\": ".data ++ jsonBool it.reviewed
     ++ ", \"removed\": ".data ++ jsonBool it.removed
     ++ ", \"removed_at\": ".data ++ jsonOptStr it.removed_at
     ++ ", \"xsec_token\": ".data ++ jsonStr it.xsec_token
     ++ ", \"first_seen\": ".data ++ jsonStr it.first_seen
     ++ ", \"saved_at\": ".data ++ jsonStr it.saved_at
     ++ ['\x7d'])

/-- Serialization of a whole collection database,
`json.dumps({"items": [...], "last_fetch": ...})`. -/
def dumpDb (db : Db) : Str :=
  '\x7b' ::
    ("\"items\": [".data
     ++ joinComma (db.items.map dumpItem)
     ++ "], \"last_fetch\": ".data
     ++ jsonOptStr db.last_fetch
     ++ ['\x7d'])

/-- The trace of `save_db(path, data)` (`utils.py` lines 22–25):
`path.parent.mkdir(parents=True, exist_ok=True)` followed by one direct
`path.write_text(json.dumps(data, ...))` — no temporary file and no
rename. -/
def save_db (path : Str) (db : Db) : List FsOp :=
  [FsOp.mkdirs (parentDir path), FsOp.writeFile path (dumpDb db)]

/-- Spec-side predicate, worded from the spec's "atomic
(write-temp-then-replace semantics)": the destination is never written
directly, and it only changes by renaming a temporary file over it. -/
def specAtomicSave (dst : Str) (ops : List FsOp) : Prop :=
  (∀ c, FsOp.writeFile dst c ∉ ops)
  ∧ (∃ tmp, tmp ≠ dst ∧ FsOp.renameFile tmp dst ∈ ops)

/-- Effect of one completed operation on the file system (a map from
path to contents).  A rename is atomic: the destination switches from
its old contents to the source's in one step. -/
def applyOp (fs : Str → Option Str) : FsOp → (Str → Option Str)
  | FsOp.mkdirs _ => fs
  | FsOp.writeFile p c => fun q => if q = p then some c else fs q
  | FsOp.renameFile src dst => fun q =>
      if q = dst then fs src else if q = src then none else fs q

/-- Effect of a completed trace. -/
def runOps (fs : Str → Option Str) : List FsOp → (Str → Option Str)
  | [] => fs
  | op :: rest => runOps (applyOp fs op) rest

/-- The file system after a crash while executing operation `k` of the
trace: earlier operations completed; if operation `k` is a write, the
target holds only the first `n` characters of the intended contents. -/
def crashDuringWrite (fs : Str → Option Str) (ops : List FsOp) (k n : Nat) :
    Str → Option Str :=
  match ops[k]? with
  | some (FsOp.writeFile p c) =>
      fun q => if q = p then some (c.take n) else runOps fs (ops.take k) q
  | _ => runOps fs (ops.take k)

/-- Scanner for balanced JSON delimiters outside string literals,
tracking in-string state and escape characters — a necessary condition
for a text to parse as JSON. -/
def balancedScan : Str → Nat → Bool → Bool → Bool
  | [], depth, inStr, _ => depth == 0 && !inStr
  | c :: rest, depth, inStr, esc =>
    if inStr then
      if esc then balancedScan rest depth true false
      else if c = '\\' then balancedScan rest depth true true
      else if c = '"' then balancedScan rest depth false false
      else balancedScan rest depth true false
    else
      if c = '"' then balancedScan rest depth true false
      else if c = '\x7b' ∨ c = '[' then balancedScan rest (depth + 1) false false
      else if c = '\x7d' ∨ c = ']' then
        (if depth = 0 then false else balancedScan rest (depth - 1) false false)
      else balancedScan rest depth false false

/-- A non-empty, delimiter-balanced text.  Every output of `dumpDb` is
balanced; a proper prefix cut inside the outer object is not. -/
def jsonBalanced (s : Str) : Bool := !s.isEmpty && balancedScan s 0 false false

/-- C2 (amended): `save_db` is not atomic.  For every path and
collection its trace fails the spec's write-temp-then-replace predicate,
contains no rename at all, writes the serialized collection directly to
the destination, and a crash one character into that write leaves the
destination holding just `"{"` — an unbalanced fragment that cannot
parse — regardless of what the file held before. -/
theorem save_db_not_atomic (path : Str) (db : Db) (fs : Str → Option Str) :
    (¬ specAtomicSave path (save_db path db))
    ∧ (∀ op ∈ save_db path db, ∀ src dst, op ≠ FsOp.renameFile src dst)
    ∧ (FsOp.writeFile path (dumpDb db) ∈ save_db path db)
    ∧ (crashDuringWrite fs (save_db path db) 1 1 path = some ['\x7b'])
    ∧ (jsonBalanced ['\x7b'] = false) := by
  refine ⟨?_, ?_, ?_, ?_, by decide⟩
  · rintro ⟨h1, -⟩
    exact h1 (dumpDb db) (by simp [save_db])
  · intro op hop src dst
    rcases (by simpa [save_db] using hop :
        op = FsOp.mkdirs (parentDir path) ∨ op = FsOp.writeFile path (dumpDb db))
      with rfl | rfl <;> intro h <;> cases h
  · simp [save_db]
  · simp [crashDuringWrite, save_db, dumpDb]

/-- C2 witness: the non-atomicity facts evaluated at a concrete path
and the empty collection. -/
theorem save_db_not_atomic_witness :
    (¬ specAtomicSave "data/likes.json".data
        (save_db "data/likes.json".data emptyDb))
    ∧ (crashDuringWrite (fun _ => none)
        (save_db "data/likes.json".data emptyDb) 1 1 "data/likes.json".data
          = some ['\x7b']) :=
  ⟨(save_db_not_atomic _ emptyDb (fun _ => none)).1,
   (save_db_not_atomic _ emptyDb (fun _ => none)).2.2.2.1⟩

/-- C2 counterexample: at a concrete location whose file holds a
previously persisted, balanced collection, a crash mid-write during the
next save leaves the file with the unbalanced fragment `"{"` — the
previously persisted data is corrupted, refuting both the
write-temp-then-replace semantics and the never-corrupts guarantee. -/
theorem save_db_atomicity_counterexample :
    (¬ specAtomicSave "data/likes.json".data
        (save_db "data/likes.json".data emptyDb))
    ∧ (jsonBalanced (dumpDb ⟨[], some "t0".data⟩) = true)
    ∧ (crashDuringWrite
        (fun q => if q = "data/likes.json".data
          then some (dumpDb ⟨[], some "t0".data⟩) else none)
        (save_db "data/likes.json".data emptyDb) 1 1 "data/likes.json".data
          = some ['\x7b'])
    ∧ (jsonBalanced ['\x7b'] = false)
    ∧ (['\x7b'] ≠ dumpDb ⟨[], some "t0".data⟩) := by
  refine ⟨?_, by decide, by decide, by decide, by decide⟩
  rintro ⟨h1, -⟩
  exact h1 (dumpDb emptyDb) (by simp [save_db])

end Xhs
